import Mathlib

/-!
Shallow embedding of the 2D-geometry core of the `aoc-rs` library
(`src/geo/pos.rs`, `src/geo/direction.rs`, `src/geo/area.rs`,
`src/geo/line_iter.rs`, `src/area.rs`), instantiated at the integer
type `Int` (the Rust code is generic over a `Num + PartialOrd` type;
the claims speak of "integer-like" instantiations).

Strings are modelled as `List Char`; the Rust standard-library string
helpers used by `FromStr for Pos` (`strip_prefix`, `strip_suffix`,
`split_once`, `trim`, integer `parse`) are embedded as the char-list
functions below.
-/

/-- Embeds `Pos<T>` from `src/geo/pos.rs`: a position in 2D space. -/
structure Pos (α : Type) where
  x : α
  y : α
deriving DecidableEq

/-- Embeds `Direction` from `src/geo/direction.rs`. -/
inductive Direction where
  | Up
  | Down
  | Left
  | Right
  | TopLeft
  | TopRight
  | BottomLeft
  | BottomRight
deriving DecidableEq

/-- Embeds `Direction::turn_back`. -/
def Direction.turn_back : Direction → Direction
  | .Up => .Down
  | .Down => .Up
  | .Left => .Right
  | .Right => .Left
  | .TopLeft => .BottomRight
  | .TopRight => .BottomLeft
  | .BottomLeft => .TopRight
  | .BottomRight => .TopLeft

/-- Embeds `Direction::turn_left`. -/
def Direction.turn_left : Direction → Direction
  | .Up => .Left
  | .Down => .Right
  | .Left => .Down
  | .Right => .Up
  | .TopLeft => .BottomLeft
  | .TopRight => .TopLeft
  | .BottomLeft => .BottomRight
  | .BottomRight => .TopRight

/-- Embeds `Direction::turn_right`. -/
def Direction.turn_right : Direction → Direction
  | .Up => .Right
  | .Down => .Left
  | .Left => .Up
  | .Right => .Down
  | .TopLeft => .TopRight
  | .TopRight => .BottomRight
  | .BottomLeft => .TopLeft
  | .BottomRight => .BottomLeft

/-- Embeds `Pos::up` (`y + distance`). -/
def Pos.up (p : Pos Int) (distance : Int) : Pos Int :=
  ⟨p.x, p.y + distance⟩

/-- Embeds `Pos::down` (`y - distance`). -/
def Pos.down (p : Pos Int) (distance : Int) : Pos Int :=
  ⟨p.x, p.y - distance⟩

/-- Embeds `Pos::left` (`x - distance`). -/
def Pos.left (p : Pos Int) (distance : Int) : Pos Int :=
  ⟨p.x - distance, p.y⟩

/-- Embeds `Pos::right` (`x + distance`). -/
def Pos.right (p : Pos Int) (distance : Int) : Pos Int :=
  ⟨p.x + distance, p.y⟩

/-- Embeds `Pos::top_left`. -/
def Pos.top_left (p : Pos Int) (distance : Int) : Pos Int :=
  ⟨p.x - distance, p.y + distance⟩

/-- Embeds `Pos::top_right`. -/
def Pos.top_right (p : Pos Int) (distance : Int) : Pos Int :=
  ⟨p.x + distance, p.y + distance⟩

/-- Embeds `Pos::bottom_left`. -/
def Pos.bottom_left (p : Pos Int) (distance : Int) : Pos Int :=
  ⟨p.x - distance, p.y - distance⟩

/-- Embeds `Pos::bottom_right`. -/
def Pos.bottom_right (p : Pos Int) (distance : Int) : Pos Int :=
  ⟨p.x + distance, p.y - distance⟩

/-- Embeds `Pos::destination`: dispatch on the direction. -/
def Pos.destination (p : Pos Int) (distance : Int) (direction : Direction) : Pos Int :=
  match direction with
  | .Up => p.up distance
  | .Down => p.down distance
  | .Left => p.left distance
  | .Right => p.right distance
  | .TopLeft => p.top_left distance
  | .TopRight => p.top_right distance
  | .BottomLeft => p.bottom_left distance
  | .BottomRight => p.bottom_right distance

/-- Embeds `AreaBoundaryError` from `src/geo/area.rs`. -/
inductive AreaBoundaryError where
  | mk
deriving DecidableEq

/-- Embeds `Area<T>` from `src/geo/area.rs` (same field order as the source). -/
structure Area where
  max_x : Int
  max_y : Int
  min_x : Int
  min_y : Int
deriving DecidableEq

/-- Embeds `Area::new`: rejects `max_x < min_x || max_y < min_y`, otherwise
stores the four arguments unchanged. -/
def Area.new (max_x max_y min_x min_y : Int) : Except AreaBoundaryError Area :=
  if max_x < min_x ∨ max_y < min_y then
    Except.error AreaBoundaryError.mk
  else
    Except.ok ⟨max_x, max_y, min_x, min_y⟩

/-- Embeds `Area::from_pos` (corner-based construction). -/
def Area.from_pos (top_left bottom_right : Pos Int) : Except AreaBoundaryError Area :=
  if bottom_right.y > top_left.y ∨ bottom_right.x < top_left.x then
    Except.error AreaBoundaryError.mk
  else
    Except.ok ⟨bottom_right.x, top_left.y, top_left.x, bottom_right.y⟩

/-- Embeds `Area::has`. -/
def Area.has (a : Area) (p : Pos Int) : Bool :=
  decide (p.x ≥ a.min_x) && decide (p.x ≤ a.max_x) &&
    decide (p.y ≥ a.min_y) && decide (p.y ≤ a.max_y)

/-- Embeds `Area::on_boundary`. -/
def Area.on_boundary (a : Area) (p : Pos Int) : Bool :=
  decide (p.x = a.max_x) || decide (p.x = a.min_x) ||
    decide (p.y = a.max_y) || decide (p.y = a.min_y)

/-- Embeds `Area::rows` (`max_y - min_y + 1`). -/
def Area.rows (a : Area) : Int :=
  a.max_y - a.min_y + 1

/-- Embeds `Area::cols` (`max_x - min_x + 1`). -/
def Area.cols (a : Area) : Int :=
  a.max_x - a.min_x + 1

/-- Embeds `Area::size` (`rows() * cols()`). -/
def Area.size (a : Area) : Int :=
  a.rows * a.cols

/-- Embeds `AreaIterator<T>` from `src/area.rs` / `src/geo/area_iter.rs`. -/
structure AreaIterator where
  area : Area
  current_x : Int
  current_y : Int
deriving DecidableEq

/-- Embeds `Area::into_iter`: the cursor starts at `(min_x, min_y)`. -/
def Area.intoIter (a : Area) : AreaIterator :=
  ⟨a, a.min_x, a.min_y⟩

/-- Embeds `AreaIterator::next`: Rust's `&mut self` update is modelled by
returning the emitted item together with the successor state. -/
def AreaIterator.next (it : AreaIterator) : Option (Pos Int × AreaIterator) :=
  if it.current_y > it.area.max_y then
    none
  else
    let result : Pos Int := ⟨it.current_x, it.current_y⟩
    if it.current_x ≥ it.area.max_x then
      some (result, ⟨it.area, it.area.min_x, it.current_y + 1⟩)
    else
      some (result, ⟨it.area, it.current_x + 1, it.current_y⟩)

/-- Termination measure for driving `AreaIterator` to exhaustion: zero once
the cursor is past the last row, otherwise one plus the remaining cells
counted row by row. -/
def itMeasure (it : AreaIterator) : Nat :=
  if it.area.max_y < it.current_y then 0
  else
    1 + (it.area.max_y - it.current_y).toNat * ((it.area.max_x - it.area.min_x).toNat + 1)
      + (it.area.max_x - it.current_x).toNat

/-- The full list of items produced by repeatedly calling
`AreaIterator::next` until it returns `None` (the behaviour of
`collect()` on the iterator).  The branches mirror
`AreaIterator::next` exactly. -/
def itList (it : AreaIterator) : List (Pos Int) :=
  if it.current_y > it.area.max_y then
    []
  else if it.current_x ≥ it.area.max_x then
    (⟨it.current_x, it.current_y⟩ : Pos Int) :: itList ⟨it.area, it.area.min_x, it.current_y + 1⟩
  else
    (⟨it.current_x, it.current_y⟩ : Pos Int) :: itList ⟨it.area, it.current_x + 1, it.current_y⟩
termination_by itMeasure it
decreasing_by
  · obtain ⟨⟨mx, my, nx, ny⟩, cx, cy⟩ := it
    simp only [gt_iff_lt, not_lt, ge_iff_le] at *
    simp only [itMeasure]
    by_cases hy : my < cy + 1
    · rw [if_pos hy, if_neg (by omega)]
      generalize (my - cy).toNat * ((mx - nx).toNat + 1) = A
      omega
    · rw [if_neg hy, if_neg (by omega)]
      have hr : (my - cy).toNat = (my - (cy + 1)).toNat + 1 := by omega
      rw [hr, Nat.succ_mul]
      generalize (my - (cy + 1)).toNat * ((mx - nx).toNat + 1) = A
      omega
  · obtain ⟨⟨mx, my, nx, ny⟩, cx, cy⟩ := it
    simp only [gt_iff_lt, not_lt, ge_iff_le] at *
    simp only [itMeasure]
    rw [if_neg (by omega), if_neg (by omega)]
    generalize (my - cy).toNat * ((mx - nx).toNat + 1) = A
    omega

/-- Sanity link between the run of the iterator and its step function:
`itList` is exactly iterate-`next`-until-`None`. -/
theorem itList_eq_next (it : AreaIterator) :
    itList it = match it.next with
      | none => []
      | some (p, it2) => p :: itList it2 := by
  rw [itList]
  unfold AreaIterator.next
  by_cases h1 : it.current_y > it.area.max_y
  · simp [h1]
  · by_cases h2 : it.current_x ≥ it.area.max_x
    · simp [h1, h2]
    · simp [h1, h2]

/-- Embeds `LineIterator<T>` from `src/geo/line_iter.rs`. -/
structure LineIterator where
  current : Pos Int
  direction : Direction
  distance : Nat
deriving DecidableEq

/-- Embeds `LineIterator::next`. -/
def LineIterator.next (it : LineIterator) : Option (Pos Int × LineIterator) :=
  if it.distance = 0 then
    none
  else
    some (it.current, ⟨it.current.destination 1 it.direction, it.direction, it.distance - 1⟩)

/-- Helper for the full run of a `LineIterator`: recursion on the remaining
distance, emitting the current position and stepping by
`destination(1, direction)`, exactly as `LineIterator::next` does. -/
def lineListAux (d : Direction) : Nat → Pos Int → List (Pos Int)
  | 0, _ => []
  | n + 1, p => p :: lineListAux d n (p.destination 1 d)

/-- The full list of items produced by a `LineIterator` (the behaviour of
`collect()` on the iterator). -/
def lineList (it : LineIterator) : List (Pos Int) :=
  lineListAux it.direction it.distance it.current

/-- Sanity link between `lineList` and the step function
`LineIterator::next`. -/
theorem lineList_eq_next (it : LineIterator) :
    lineList it = match it.next with
      | none => []
      | some (p, it2) => p :: lineList it2 := by
  obtain ⟨p, d, n⟩ := it
  cases n with
  | zero => simp [lineList, lineListAux, LineIterator.next]
  | succ k => simp [lineList, lineListAux, LineIterator.next]

/-- Spec-side description used by C2: the position reached from `p` after
`k` single-unit steps in direction `d`, i.e. the k-fold application of
`destination(1, d)`. -/
def destIter (p : Pos Int) (d : Direction) : Nat → Pos Int
  | 0 => p
  | k + 1 => (destIter p d k).destination 1 d

lemma destIter_shift (p : Pos Int) (d : Direction) (k : Nat) :
    destIter p d (k + 1) = destIter (p.destination 1 d) d k := by
  induction k with
  | zero => rfl
  | succ m ih =>
    show (destIter p d (m + 1)).destination 1 d = destIter (p.destination 1 d) d (m + 1)
    rw [ih]
    rfl

lemma lineListAux_eq (d : Direction) :
    ∀ (n : Nat) (p : Pos Int), lineListAux d n p = (List.range n).map (destIter p d) := by
  intro n
  induction n with
  | zero => intro p; simp [lineListAux]
  | succ m ih =>
    intro p
    rw [lineListAux, ih, List.range_succ_eq_map, List.map_cons, List.map_map]
    refine congrArg₂ List.cons rfl ?_
    refine List.map_congr_left ?_
    intro k _
    simp only [Function.comp_apply]
    exact (destIter_shift p d k).symm

/-- C2: a `LineIterator` with start `p`, direction `d` and distance `n`
yields exactly `n` positions, the first being `p` and the k-th being the
k-fold `destination(1, d)` step from `p`; in particular the worked
example from `(0,0)` heading `Right` for distance 5. -/
theorem line_iter_yields_destination_steps :
    (∀ (p : Pos Int) (d : Direction) (n : Nat),
        lineList ⟨p, d, n⟩ = (List.range n).map (destIter p d)
          ∧ (lineList ⟨p, d, n⟩).length = n)
    ∧ lineList ⟨⟨0, 0⟩, Direction.Right, 5⟩ =
        [⟨0, 0⟩, ⟨1, 0⟩, ⟨2, 0⟩, ⟨3, 0⟩, ⟨4, 0⟩] := by
  constructor
  · intro p d n
    refine ⟨lineListAux_eq d n p, ?_⟩
    rw [lineList, lineListAux_eq d n p]
    simp
  · decide

/-- C3: `Area::new` fails with the boundary error exactly when
`max_x < min_x` or `max_y < min_y`, and otherwise returns the area with
the four fields stored unchanged. -/
theorem area_new_boundary_check (max_x max_y min_x min_y : Int) :
    (Area.new max_x max_y min_x min_y = Except.error AreaBoundaryError.mk
        ↔ max_x < min_x ∨ max_y < min_y)
    ∧ (¬(max_x < min_x ∨ max_y < min_y) →
        Area.new max_x max_y min_x min_y = Except.ok ⟨max_x, max_y, min_x, min_y⟩) := by
  unfold Area.new
  by_cases h : max_x < min_x ∨ max_y < min_y
  · simp [h]
  · simp [h]

/-- Witness for C3 at concrete inputs: `new(-1,-1,0,0)` fails,
`new(10,10,0,0)` returns the fields unchanged. -/
theorem area_new_boundary_check_witness :
    Area.new (-1) (-1) 0 0 = Except.error AreaBoundaryError.mk
    ∧ Area.new 10 10 0 0 = Except.ok ⟨10, 10, 0, 0⟩ :=
  ⟨(area_new_boundary_check (-1) (-1) 0 0).1.mpr (Or.inl (by decide)),
   (area_new_boundary_check 10 10 0 0).2 (by decide)⟩

/-- C4: `Area::from_pos` fails with the boundary error exactly when
`bottom_right.y > top_left.y` or `bottom_right.x < top_left.x`, and
otherwise returns `{max_x = bottom_right.x, max_y = top_left.y,
min_x = top_left.x, min_y = bottom_right.y}`. -/
theorem area_from_pos_corners (tl br : Pos Int) :
    (Area.from_pos tl br = Except.error AreaBoundaryError.mk
        ↔ br.y > tl.y ∨ br.x < tl.x)
    ∧ (¬(br.y > tl.y ∨ br.x < tl.x) →
        Area.from_pos tl br = Except.ok ⟨br.x, tl.y, tl.x, br.y⟩) := by
  unfold Area.from_pos
  by_cases h : br.y > tl.y ∨ br.x < tl.x
  · simp [h]
  · simp [h]

/-- Witness for C4 at the spec's examples: corners `(0,10)`/`(10,0)` give
`{max_x:10, max_y:10, min_x:0, min_y:0}`, corners `(0,0)`/`(1,1)` fail. -/
theorem area_from_pos_corners_witness :
    Area.from_pos ⟨0, 10⟩ ⟨10, 0⟩ = Except.ok ⟨10, 10, 0, 0⟩
    ∧ Area.from_pos ⟨0, 0⟩ ⟨1, 1⟩ = Except.error AreaBoundaryError.mk :=
  ⟨(area_from_pos_corners ⟨0, 10⟩ ⟨10, 0⟩).2 (by decide),
   (area_from_pos_corners ⟨0, 0⟩ ⟨1, 1⟩).1.mpr (Or.inl (by decide))⟩

/-- C5: on all 8 directions, `turn_back` is an involution and
`turn_left` / `turn_right` are mutual inverses. -/
theorem direction_turn_algebra :
    ∀ d : Direction,
      d.turn_back.turn_back = d
        ∧ d.turn_right.turn_left = d
        ∧ d.turn_left.turn_right = d := by
  intro d
  cases d <;> exact ⟨rfl, rfl, rfl⟩

/-- C8: `on_boundary` holds exactly when the position's x equals `min_x`
or `max_x`, or its y equals `min_y` or `max_y`; containment in the area
is not required, as the concrete point `(0, 999)` against the area
`0..10 × 0..10` shows. -/
theorem area_on_boundary_edge_lines :
    (∀ (a : Area) (p : Pos Int),
        a.on_boundary p = true ↔
          p.x = a.min_x ∨ p.x = a.max_x ∨ p.y = a.min_y ∨ p.y = a.max_y)
    ∧ (⟨10, 10, 0, 0⟩ : Area).on_boundary ⟨0, 999⟩ = true
    ∧ (⟨10, 10, 0, 0⟩ : Area).has ⟨0, 999⟩ = false := by
  refine ⟨?_, by decide, by decide⟩
  intro a p
  simp only [Area.on_boundary, Bool.or_eq_true, decide_eq_true_eq]
  tauto

/-- C9: an `Area` whose fields violate the construction invariant with
`min_y > max_y` produces an iterator whose very first `next` is `None`,
and whose full traversal yields the empty list. -/
theorem area_iter_invalid_bounds_empty (a : Area) (h : a.max_y < a.min_y) :
    a.intoIter.next = none ∧ itList a.intoIter = [] := by
  constructor
  · unfold Area.intoIter AreaIterator.next
    simp [h]
  · rw [itList]
    simp [Area.intoIter, h]

/-- Witness for C9: the area `{max_x:0, max_y:-1, min_x:0, min_y:0}` has
`min_y > max_y`; its iterator yields nothing. -/
theorem area_iter_invalid_bounds_empty_witness :
    (⟨0, -1, 0, 0⟩ : Area).intoIter.next = none
    ∧ itList (⟨0, -1, 0, 0⟩ : Area).intoIter = [] :=
  area_iter_invalid_bounds_empty ⟨0, -1, 0, 0⟩ (by decide)

/-- Spec-side description used by C1: the row-major enumeration of an
area, all columns of the bottom row (`y = min_y`) first, then the next
row, up to `y = max_y`, each row running from `min_x` to `max_x`. -/
def rowMajorSpec (a : Area) : List (Pos Int) :=
  (List.range a.rows.toNat).flatMap
    (fun (r : Nat) => (List.range a.cols.toNat).map
      (fun (c : Nat) => (⟨a.min_x + (c : Int), a.min_y + (r : Int)⟩ : Pos Int)))

lemma itList_row (a : Area) :
    ∀ (n : Nat) (x y : Int), y ≤ a.max_y → x ≤ a.max_x → (a.max_x - x).toNat = n →
      itList ⟨a, x, y⟩ =
        ((List.range (n + 1)).map (fun (c : Nat) => (⟨x + (c : Int), y⟩ : Pos Int)))
          ++ itList ⟨a, a.min_x, y + 1⟩ := by
  intro n
  induction n with
  | zero =>
    intro x y hy hx hn
    rw [itList]
    simp only [gt_iff_lt, ge_iff_le]
    rw [if_neg (by omega), if_pos (by omega)]
    simp [List.range_succ]
  | succ m ih =>
    intro x y hy hx hn
    rw [itList]
    simp only [gt_iff_lt, ge_iff_le]
    rw [if_neg (by omega), if_neg (by omega)]
    rw [ih (x + 1) y hy (by omega) (by omega)]
    rw [List.range_succ_eq_map (m + 1), List.map_cons, List.map_map, List.cons_append]
    congr 1
    · simp
    congr 1
    refine List.map_congr_left ?_
    intro k _
    simp only [Function.comp_apply, Pos.mk.injEq]
    constructor
    · push_cast
      ring
    · trivial

lemma itList_rows (a : Area) (hx : a.min_x ≤ a.max_x) :
    ∀ (m : Nat) (y : Int), (a.max_y - y + 1).toNat = m →
      itList ⟨a, a.min_x, y⟩ =
        (List.range m).flatMap
          (fun (r : Nat) => (List.range a.cols.toNat).map
            (fun (c : Nat) => (⟨a.min_x + (c : Int), y + (r : Int)⟩ : Pos Int))) := by
  intro m
  induction m with
  | zero =>
    intro y hm
    rw [itList]
    simp only [gt_iff_lt]
    rw [if_pos (by omega)]
    simp
  | succ k ih =>
    intro y hm
    have hy : y ≤ a.max_y := by omega
    have hcols : a.cols.toNat = (a.max_x - a.min_x).toNat + 1 := by
      unfold Area.cols
      omega
    rw [itList_row a ((a.max_x - a.min_x).toNat) a.min_x y hy hx rfl]
    rw [ih (y + 1) (by omega)]
    rw [List.range_succ_eq_map k, List.flatMap_cons, List.flatMap_map]
    congr 1
    · rw [hcols]
      simp
    refine List.flatMap_congr ?_
    intro r _
    refine List.map_congr_left ?_
    intro c _
    simp only [Function.comp_apply, Pos.mk.injEq]
    constructor
    · trivial
    · push_cast
      ring

lemma int_toNat_mul (r c : Int) (hr : 0 ≤ r) (hc : 0 ≤ c) :
    (r * c).toNat = r.toNat * c.toNat := by
  lift r to Nat using hr
  lift c to Nat using hc
  rw [← Nat.cast_mul, Int.toNat_natCast]
  simp

/-- C1: for an `Area` with `min_x ≤ max_x` and `min_y ≤ max_y`, the
iterator obtained from `into_iter` starts its cursor at `(min_x, min_y)`
and, driven to exhaustion by `next`, yields exactly the row-major
enumeration of the area, `rows() * cols()` positions in total (so a
single-point area yields exactly its one point). -/
theorem area_iter_row_major (a : Area) (hx : a.min_x ≤ a.max_x) (hy : a.min_y ≤ a.max_y) :
    a.intoIter = ⟨a, a.min_x, a.min_y⟩
    ∧ itList a.intoIter = rowMajorSpec a
    ∧ (itList a.intoIter).length = a.size.toNat := by
  have hlist : itList a.intoIter = rowMajorSpec a := by
    show itList ⟨a, a.min_x, a.min_y⟩ = _
    rw [itList_rows a hx a.rows.toNat a.min_y rfl]
    rfl
  refine ⟨rfl, hlist, ?_⟩
  rw [hlist]
  unfold rowMajorSpec
  rw [List.length_flatMap]
  simp only [Function.comp_def, List.length_map, List.length_range]
  rw [List.map_const', List.sum_replicate, List.length_range, smul_eq_mul]
  unfold Area.size
  rw [int_toNat_mul a.rows a.cols (by unfold Area.rows; omega) (by unfold Area.cols; omega)]

/-- Witness for C1 at the spec's worked example, the area
`{max_x:2, max_y:3, min_x:0, min_y:-1}` (15 positions). -/
theorem area_iter_row_major_witness :
    (⟨2, 3, 0, -1⟩ : Area).intoIter = ⟨⟨2, 3, 0, -1⟩, 0, -1⟩
    ∧ itList (⟨2, 3, 0, -1⟩ : Area).intoIter = rowMajorSpec ⟨2, 3, 0, -1⟩
    ∧ (itList (⟨2, 3, 0, -1⟩ : Area).intoIter).length = (⟨2, 3, 0, -1⟩ : Area).size.toNat :=
  area_iter_row_major ⟨2, 3, 0, -1⟩ (by decide) (by decide)

/-- Largest value of Rust's 64-bit `isize`, as a natural number. -/
def isizeMaxNat : Nat := 2 ^ 63 - 1

/-- Embeds `usize::try_from(isize)` (64-bit): succeeds exactly on
non-negative values (every non-negative `isize` fits in `usize`). -/
def usizeTryFromInt (v : Int) : Option Nat :=
  if 0 ≤ v then some v.toNat else none

/-- Embeds `isize::try_from(usize)` (64-bit): succeeds exactly on values
no larger than `isize::MAX`. -/
def isizeTryFromNat (v : Nat) : Option Int :=
  if v ≤ isizeMaxNat then some (v : Int) else none

/-- Embeds `TryFrom<SignedPosIdx> for PosIdx`: both components convert
independently, `x` first; a failure on either component is the whole
conversion's failure (Rust's `?` operator). -/
def posIdxTryFromSigned (p : Pos Int) : Option (Pos Nat) :=
  match usizeTryFromInt p.x with
  | none => none
  | some x =>
    match usizeTryFromInt p.y with
    | none => none
    | some y => some ⟨x, y⟩

/-- Embeds `TryFrom<PosIdx> for SignedPosIdx`. -/
def signedPosIdxTryFromIdx (q : Pos Nat) : Option (Pos Int) :=
  match isizeTryFromNat q.x with
  | none => none
  | some x =>
    match isizeTryFromNat q.y with
    | none => none
    | some y => some ⟨x, y⟩

/-- C10: the signed/unsigned position conversions round-trip.  A
`Pos<isize>` with both components non-negative (and, being an `isize`,
at most `isize::MAX`) converts to a `Pos<usize>` and back to exactly
itself; a `Pos<usize>` whose components are representable as `isize`
converts to a `Pos<isize>` and back to exactly itself. -/
theorem pos_idx_conversion_round_trip :
    (∀ p : Pos Int, 0 ≤ p.x → 0 ≤ p.y →
        p.x ≤ (isizeMaxNat : Int) → p.y ≤ (isizeMaxNat : Int) →
        ∃ q : Pos Nat, posIdxTryFromSigned p = some q
          ∧ signedPosIdxTryFromIdx q = some p)
    ∧ (∀ q : Pos Nat, q.x ≤ isizeMaxNat → q.y ≤ isizeMaxNat →
        ∃ p : Pos Int, signedPosIdxTryFromIdx q = some p
          ∧ posIdxTryFromSigned p = some q) := by
  constructor
  · intro p hx hy hx2 hy2
    refine ⟨⟨p.x.toNat, p.y.toNat⟩, ?_, ?_⟩
    · simp [posIdxTryFromSigned, usizeTryFromInt, hx, hy]
    · have e1 : p.x.toNat ≤ isizeMaxNat := by omega
      have e2 : p.y.toNat ≤ isizeMaxNat := by omega
      simp only [signedPosIdxTryFromIdx, isizeTryFromNat]
      rw [if_pos e1, if_pos e2, Int.toNat_of_nonneg hx, Int.toNat_of_nonneg hy]
  · intro q hx hy
    refine ⟨⟨(q.x : Int), (q.y : Int)⟩, ?_, ?_⟩
    · simp [signedPosIdxTryFromIdx, isizeTryFromNat, hx, hy]
    · simp [posIdxTryFromSigned, usizeTryFromInt]

/-- Witness for C10 at the concrete positions `(1, 2)` (signed) and
`(3, 4)` (unsigned). -/
theorem pos_idx_conversion_round_trip_witness :
    (∃ q : Pos Nat, posIdxTryFromSigned ⟨1, 2⟩ = some q
        ∧ signedPosIdxTryFromIdx q = some ⟨1, 2⟩)
    ∧ (∃ p : Pos Int, signedPosIdxTryFromIdx ⟨3, 4⟩ = some p
        ∧ posIdxTryFromSigned p = some ⟨3, 4⟩) :=
  ⟨pos_idx_conversion_round_trip.1 ⟨1, 2⟩ (by decide) (by decide)
      (by norm_num [isizeMaxNat]) (by norm_num [isizeMaxNat]),
   pos_idx_conversion_round_trip.2 ⟨3, 4⟩ (by norm_num [isizeMaxNat])
      (by norm_num [isizeMaxNat])⟩

/-- Model of `char::is_whitespace` restricted to ASCII whitespace (the
only whitespace the claims exercise). -/
def isWs (c : Char) : Bool :=
  c == ' ' || c == '\t' || c == '\n' || c == '\r'

/-- Embeds `str::strip_prefix(char)` on char lists. -/
def stripFirst (c : Char) : List Char → Option (List Char)
  | [] => none
  | a :: rest => if a = c then some rest else none

/-- Embeds `str::strip_suffix(char)` on char lists. -/
def stripLast (c : Char) (s : List Char) : Option (List Char) :=
  match stripFirst c s.reverse with
  | none => none
  | some t => some t.reverse

/-- Embeds `str::split_once(char)` on char lists: split at the first
occurrence of `c`, failing when `c` does not occur. -/
def splitOnce (c : Char) : List Char → Option (List Char × List Char)
  | [] => none
  | a :: rest =>
    if a = c then some ([], rest)
    else Option.map (fun p => (a :: p.1, p.2)) (splitOnce c rest)

/-- Embeds `str::trim` on char lists (ASCII whitespace). -/
def trimWs (s : List Char) : List Char :=
  ((s.dropWhile isWs).reverse.dropWhile isWs).reverse

/-- The ASCII digit character for `d < 10`. -/
def digitChar (d : Nat) : Char :=
  Char.ofNat (48 + d)

/-- Decimal digits of a number, most significant first, empty for zero:
the digit loop of Rust's integer `Display`. -/
def natDigitsAux : Nat → List Char
  | 0 => []
  | n + 1 => natDigitsAux ((n + 1) / 10) ++ [digitChar ((n + 1) % 10)]
decreasing_by simp_wf; omega

/-- Decimal rendering of a natural number, as Rust's `Display` writes it. -/
def natDigits (n : Nat) : List Char :=
  if n = 0 then ['0'] else natDigitsAux n

/-- Embeds Rust's integer `Display`: an optional minus sign followed by
the decimal digits of the absolute value. -/
def fmtInt : Int → List Char
  | Int.ofNat n => natDigits n
  | Int.negSucc n => '-' :: natDigits (n + 1)

/-- Numeric value of an ASCII digit character. -/
def digitVal (c : Char) : Option Nat :=
  if 48 ≤ c.toNat ∧ c.toNat ≤ 57 then some (c.toNat - 48) else none

/-- Digit-accumulation loop of Rust's integer `FromStr`. -/
def parseDigitsLoop (acc : Nat) : List Char → Option Nat
  | [] => some acc
  | c :: cs =>
    match digitVal c with
    | none => none
    | some d => parseDigitsLoop (acc * 10 + d) cs

/-- The digits part of Rust's integer `FromStr`: one or more digits and
nothing else. -/
def parseNatDigits : List Char → Option Nat
  | [] => none
  | c :: cs => parseDigitsLoop 0 (c :: cs)

/-- Embeds Rust's signed-integer `FromStr` (overflow aside; the claims
are about unbounded integer-like `T`): an optional `+` or `-` sign
followed by one or more digits, nothing else. -/
def parseIntRust (s : List Char) : Option Int :=
  match s with
  | [] => none
  | c :: rest =>
    if c = '+' then Option.map (fun (n : Nat) => (n : Int)) (parseNatDigits rest)
    else if c = '-' then Option.map (fun (n : Nat) => -(n : Int)) (parseNatDigits rest)
    else Option.map (fun (n : Nat) => (n : Int)) (parseNatDigits (c :: rest))

/-- Embeds `Display for Pos` (`"({}, {})"`). -/
def posDisplay (p : Pos Int) : List Char :=
  '(' :: (fmtInt p.x ++ ',' :: ' ' :: fmtInt p.y ++ [')'])

/-- Embeds `FromStr for Pos`: strip a leading `'('`, then a trailing
`')'`, split the remainder at the first `','`, trim both components and
parse each as an integer (the `and_then` / `?` chain of the source).
Note there is no trimming of the whole input before the parenthesis
check. -/
def posFromStr (s : List Char) : Option (Pos Int) :=
  (stripFirst '(' s).bind fun t =>
    (stripLast ')' t).bind fun m =>
      (splitOnce ',' m).bind fun q =>
        (parseIntRust (trimWs q.1)).bind fun x =>
          (parseIntRust (trimWs q.2)).bind fun y =>
            some ⟨x, y⟩

lemma natDigitsAux_mem (n : Nat) : ∀ c ∈ natDigitsAux n, 48 ≤ c.toNat ∧ c.toNat ≤ 57 := by
  induction n using Nat.strong_induction_on with
  | _ n ih =>
    match n with
    | 0 =>
      intro c hc
      simp [natDigitsAux] at hc
    | k + 1 =>
      intro c hc
      rw [natDigitsAux] at hc
      rcases List.mem_append.mp hc with h | h
      · exact ih ((k + 1) / 10) (by omega) c h
      · have hck : c = digitChar ((k + 1) % 10) := by simpa using h
        subst hck
        have hm : (k + 1) % 10 < 10 := by omega
        have hall : ∀ d, d < 10 → 48 ≤ (digitChar d).toNat ∧ (digitChar d).toNat ≤ 57 := by
          decide
        exact hall _ hm

lemma natDigitsAux_ne_nil (n : Nat) (h : n ≠ 0) : natDigitsAux n ≠ [] := by
  match n, h with
  | k + 1, _ =>
    rw [natDigitsAux]
    simp

lemma natDigits_mem (m : Nat) : ∀ c ∈ natDigits m, 48 ≤ c.toNat ∧ c.toNat ≤ 57 := by
  by_cases h : m = 0
  · subst h
    intro c hc
    simp [natDigits] at hc
    subst hc
    decide
  · rw [natDigits, if_neg h]
    exact natDigitsAux_mem m

lemma digitVal_digitChar : ∀ d, d < 10 → digitVal (digitChar d) = some d := by
  decide

lemma parseDigitsLoop_append (l1 l2 : List Char) :
    ∀ acc, parseDigitsLoop acc (l1 ++ l2) =
      match parseDigitsLoop acc l1 with
      | none => none
      | some a => parseDigitsLoop a l2 := by
  induction l1 with
  | nil =>
    intro acc
    simp [parseDigitsLoop]
  | cons c cs ih =>
    intro acc
    rw [List.cons_append, parseDigitsLoop, parseDigitsLoop]
    cases digitVal c with
    | none => rfl
    | some d => exact ih _

lemma parseDigitsLoop_natDigitsAux (n : Nat) :
    ∀ acc, parseDigitsLoop acc (natDigitsAux n) =
      some (acc * 10 ^ (natDigitsAux n).length + n) := by
  induction n using Nat.strong_induction_on with
  | _ n ih =>
    match n with
    | 0 =>
      intro acc
      simp [natDigitsAux, parseDigitsLoop]
    | k + 1 =>
      intro acc
      rw [natDigitsAux, parseDigitsLoop_append]
      rw [ih ((k + 1) / 10) (by omega) acc]
      have hm : (k + 1) % 10 < 10 := by omega
      simp only [parseDigitsLoop, digitVal_digitChar _ hm, List.length_append,
        List.length_singleton]
      have hdm : 10 * ((k + 1) / 10) + (k + 1) % 10 = k + 1 := Nat.div_add_mod (k + 1) 10
      congr 1
      calc (acc * 10 ^ (natDigitsAux ((k + 1) / 10)).length + (k + 1) / 10) * 10 + (k + 1) % 10
          = acc * (10 ^ (natDigitsAux ((k + 1) / 10)).length * 10)
              + (10 * ((k + 1) / 10) + (k + 1) % 10) := by ring
        _ = acc * 10 ^ ((natDigitsAux ((k + 1) / 10)).length + 1) + (k + 1) := by
              rw [hdm, pow_succ]

lemma parseNatDigits_natDigits (m : Nat) : parseNatDigits (natDigits m) = some m := by
  by_cases h : m = 0
  · subst h
    decide
  · rw [natDigits, if_neg h]
    cases hs : natDigitsAux m with
    | nil => exact absurd hs (natDigitsAux_ne_nil m h)
    | cons c cs =>
      show parseDigitsLoop 0 (c :: cs) = some m
      rw [← hs, parseDigitsLoop_natDigitsAux]
      simp

lemma fmtInt_toNat_bound (i : Int) : ∀ c ∈ fmtInt i, 45 ≤ c.toNat ∧ c.toNat ≤ 57 := by
  cases i with
  | ofNat n =>
    intro c hc
    have := natDigits_mem n c hc
    omega
  | negSucc n =>
    intro c hc
    rcases List.mem_cons.mp hc with h | h
    · subst h
      decide
    · have := natDigits_mem (n + 1) c h
      omega

lemma fmtInt_not_ws (i : Int) : ∀ c ∈ fmtInt i, isWs c = false := by
  intro c hc
  have hb := fmtInt_toNat_bound i c hc
  simp only [isWs, Bool.or_eq_false_iff, beq_eq_false_iff_ne, ne_eq]
  refine ⟨⟨⟨?_, ?_⟩, ?_⟩, ?_⟩ <;>
    (intro he; subst he; exact absurd hb (by decide))

lemma fmtInt_ne_comma (i : Int) : ',' ∉ fmtInt i := by
  intro hc
  have hb := fmtInt_toNat_bound i ',' hc
  exact absurd hb (by decide)

lemma natDigits_head_not_sign (m : Nat) (c : Char) (cs : List Char)
    (h : natDigits m = c :: cs) : c ≠ '+' ∧ c ≠ '-' := by
  have hc : c ∈ natDigits m := by
    rw [h]
    exact List.mem_cons_self c cs
  have hb := natDigits_mem m c hc
  constructor <;> (intro he; subst he; exact absurd hb (by decide))

lemma parseIntRust_fmtInt (i : Int) : parseIntRust (fmtInt i) = some i := by
  cases i with
  | ofNat n =>
    show parseIntRust (natDigits n) = some (Int.ofNat n)
    obtain ⟨c, cs, hcc⟩ : ∃ c cs, natDigits n = c :: cs := by
      by_cases h : n = 0
      · subst h
        exact ⟨'0', [], rfl⟩
      · rw [natDigits, if_neg h]
        cases hs : natDigitsAux n with
        | nil => exact absurd hs (natDigitsAux_ne_nil n h)
        | cons c cs => exact ⟨c, cs, rfl⟩
    have hsign := natDigits_head_not_sign n c cs hcc
    rw [hcc, parseIntRust]
    rw [if_neg hsign.1, if_neg hsign.2, ← hcc, parseNatDigits_natDigits]
    rfl
  | negSucc n =>
    show parseIntRust ('-' :: natDigits (n + 1)) = some (Int.negSucc n)
    rw [parseIntRust]
    rw [if_neg (by decide), if_pos rfl, parseNatDigits_natDigits]
    simp [Int.negSucc_eq]

lemma dropWhile_isWs_eq_self (l : List Char) (h : ∀ c ∈ l, isWs c = false) :
    l.dropWhile isWs = l := by
  cases l with
  | nil => rfl
  | cons a t =>
    rw [List.dropWhile_cons, if_neg]
    simp [h a (List.mem_cons_self a t)]

lemma trimWs_eq_self (l : List Char) (h : ∀ c ∈ l, isWs c = false) :
    trimWs l = l := by
  unfold trimWs
  rw [dropWhile_isWs_eq_self l h,
    dropWhile_isWs_eq_self l.reverse (fun c hc => h c (List.mem_reverse.mp hc)),
    List.reverse_reverse]

lemma trimWs_cons_space (l : List Char) (h : ∀ c ∈ l, isWs c = false) :
    trimWs (' ' :: l) = l := by
  unfold trimWs
  rw [List.dropWhile_cons, if_pos (by decide)]
  rw [dropWhile_isWs_eq_self l h,
    dropWhile_isWs_eq_self l.reverse (fun c hc => h c (List.mem_reverse.mp hc)),
    List.reverse_reverse]

lemma stripFirst_eq_some (c : Char) (s t : List Char) :
    stripFirst c s = some t ↔ s = c :: t := by
  cases s with
  | nil => simp [stripFirst]
  | cons a rest =>
    rw [stripFirst]
    by_cases h : a = c
    · subst h
      simp
    · simp [h]

lemma stripLast_eq_some (c : Char) (s m : List Char) :
    stripLast c s = some m ↔ s = m ++ [c] := by
  constructor
  · intro h
    unfold stripLast at h
    cases hr : stripFirst c s.reverse with
    | none =>
      rw [hr] at h
      cases h
    | some t =>
      rw [hr] at h
      simp only [Option.some.injEq] at h
      subst h
      have hs := (stripFirst_eq_some c s.reverse t).mp hr
      have : s = (c :: t).reverse := by
        rw [← hs, List.reverse_reverse]
      rw [this]
      simp
  · intro h
    subst h
    simp [stripLast, stripFirst]

lemma splitOnce_eq_some (c : Char) :
    ∀ (s x y : List Char), splitOnce c s = some (x, y) ↔ s = x ++ c :: y ∧ c ∉ x := by
  intro s
  induction s with
  | nil =>
    intro x y
    simp [splitOnce]
  | cons a rest ih =>
    intro x y
    rw [splitOnce]
    by_cases h : a = c
    · subst h
      rw [if_pos rfl]
      constructor
      · intro he
        simp only [Option.some.injEq, Prod.mk.injEq] at he
        obtain ⟨hx, hy⟩ := he
        subst hx
        subst hy
        simp
      · rintro ⟨he, hnx⟩
        cases x with
        | nil =>
          simp at he
          subst he
          rfl
        | cons b bs =>
          simp only [List.cons_append, List.cons.injEq] at he
          exact absurd (he.1 ▸ List.mem_cons_self b bs) (he.1 ▸ hnx)
    · rw [if_neg h]
      constructor
      · intro he
        rw [Option.map_eq_some'] at he
        obtain ⟨⟨u, v⟩, hr, hp⟩ := he
        simp only [Prod.mk.injEq] at hp
        obtain ⟨hx, hy⟩ := hp
        subst hy
        have hu := (ih u v).mp hr
        subst hx
        refine ⟨by rw [hu.1]; simp, ?_⟩
        intro hc
        rcases List.mem_cons.mp hc with h1 | h1
        · exact h h1.symm
        · exact hu.2 h1
      · rintro ⟨he, hnx⟩
        cases x with
        | nil =>
          simp only [List.nil_append, List.cons.injEq] at he
          exact absurd he.1 h
        | cons b bs =>
          simp only [List.cons_append, List.cons.injEq] at he
          obtain ⟨hb, hrest⟩ := he
          subst hb
          have h2 : splitOnce c rest = some (bs, y) :=
            (ih bs y).mpr ⟨hrest, fun hc => hnx (List.mem_cons_of_mem _ hc)⟩
          rw [h2]
          rfl

lemma posFromStr_iff (s : List Char) (p : Pos Int) :
    posFromStr s = some p ↔
      ∃ xs ys, s = '(' :: ((xs ++ ',' :: ys) ++ [')'])
        ∧ ',' ∉ xs
        ∧ parseIntRust (trimWs xs) = some p.x
        ∧ parseIntRust (trimWs ys) = some p.y := by
  constructor
  · intro h
    unfold posFromStr at h
    cases h1 : stripFirst '(' s with
    | none => rw [h1, Option.none_bind] at h; cases h
    | some t =>
      rw [h1, Option.some_bind] at h
      cases h2 : stripLast ')' t with
      | none => rw [h2, Option.none_bind] at h; cases h
      | some m =>
        rw [h2, Option.some_bind] at h
        cases h3 : splitOnce ',' m with
        | none => rw [h3, Option.none_bind] at h; cases h
        | some q =>
          obtain ⟨xs, ys⟩ := q
          rw [h3, Option.some_bind] at h
          dsimp only at h
          cases h4 : parseIntRust (trimWs xs) with
          | none => rw [h4, Option.none_bind] at h; cases h
          | some xv =>
            rw [h4, Option.some_bind] at h
            cases h5 : parseIntRust (trimWs ys) with
            | none => rw [h5, Option.none_bind] at h; cases h
            | some yv =>
              rw [h5, Option.some_bind] at h
              simp only [Option.some.injEq] at h
              subst h
              have e1 := (stripFirst_eq_some '(' s t).mp h1
              have e2 := (stripLast_eq_some ')' t m).mp h2
              have e3 := (splitOnce_eq_some ',' m xs ys).mp h3
              refine ⟨xs, ys, ?_, e3.2, h4, h5⟩
              rw [e1, e2, e3.1]
  · rintro ⟨xs, ys, rfl, hnx, hx, hy⟩
    unfold posFromStr
    rw [(stripFirst_eq_some '(' _ _).mpr rfl]
    simp only [Option.some_bind]
    rw [(stripLast_eq_some ')' ((xs ++ ',' :: ys) ++ [')']) (xs ++ ',' :: ys)).mpr rfl]
    simp only [Option.some_bind]
    rw [(splitOnce_eq_some ',' (xs ++ ',' :: ys) xs ys).mpr ⟨rfl, hnx⟩]
    simp only [Option.some_bind]
    rw [hx]
    simp only [Option.some_bind]
    rw [hy]
    rfl

/-- C6: parsing the rendered `"(x, y)"` form of any integer position
returns exactly that position (render/parse round trip). -/
theorem pos_display_parse_round_trip (p : Pos Int) :
    posFromStr (posDisplay p) = some p := by
  rw [posFromStr_iff]
  refine ⟨fmtInt p.x, ' ' :: fmtInt p.y, ?_, fmtInt_ne_comma p.x, ?_, ?_⟩
  · simp [posDisplay]
  · rw [trimWs_eq_self _ (fmtInt_not_ws p.x), parseIntRust_fmtInt]
  · rw [trimWs_cons_space _ (fmtInt_not_ws p.y), parseIntRust_fmtInt]

/-- Counterexample to C7 as stated: the input `" (1, 2)"` is the
parenthesized form surrounded by leading whitespace, its components both
parse as integers (second conjunct shows the same string without the
space parses), yet `FromStr for Pos` rejects it — the implementation
strips `'('` from the raw input without trimming it first. -/
theorem pos_from_str_rejects_outer_ws :
    posFromStr [' ', '(', '1', ',', ' ', '2', ')'] = none
    ∧ posFromStr ['(', '1', ',', ' ', '2', ')'] = some ⟨1, 2⟩ := by
  constructor
  · decide
  · decide

/-- C7 (amended): position parsing accepts exactly the strings whose
very first character is `'('` and very last is `')'`, with the first
`','` in between separating an x and a y component that each parse as an
integer after trimming the whitespace around the component; surrounding
whitespace around the parenthesized form itself is rejected. -/
theorem pos_from_str_grammar (s : List Char) (p : Pos Int) :
    posFromStr s = some p ↔
      ∃ xs ys, s = '(' :: ((xs ++ ',' :: ys) ++ [')'])
        ∧ ',' ∉ xs
        ∧ parseIntRust (trimWs xs) = some p.x
        ∧ parseIntRust (trimWs ys) = some p.y :=
  posFromStr_iff s p
